import Mathlib

/-!
Verification of the Bose–Einstein light-emission simulation.

The embedded program consists of three Python scripts (simulasi.py,
pengembangan.py, 4D.py) sharing the same core numerical routines:

* `bose_einstein wavelength T` — the Planck / Bose–Einstein spectral
  radiance `(2·h·c²/λ⁵) / (exp(h·c/(λ·k·T)) − 1)`;
* `T_t_at` — Newton's law of cooling
  `T(t) = T_env + (T0 − T_env)·exp(−k_cool·t)`;
* `linspace` — the numpy grid constructor used for wavelengths and times;
* `intensityField` / `globalMax` / `normalizeField` — the intensity matrix
  over (temperature, wavelength) and its normalization by the global max
  (`I_time /= I_time.max()`);
* `idxOfMin` / `nearestIdx` / `peakTrace` — the Wien peak tracker
  (`idx = np.abs(wl_nm - lambda_max_nm[i]).argmin(); I_peak.append(I_time[i, idx])`);
* `idxOfMax` — the first-occurrence arg-max used to compare raw vs
  normalized rows;
* `mape` / `chi_square` — the error metrics of simulasi.py.

Machine floats are modelled as real numbers; note that in this embedding
real division by zero yields 0 where NumPy would produce Inf/NaN — the
theorems about zero denominators record this explicitly.
-/

namespace BoseEinstein

noncomputable section

/-- Planck's constant h in J·s, the value imported from scipy.constants. -/
def h : ℝ := 6.62607015e-34

/-- Speed of light c in m/s, the value imported from scipy.constants. -/
def c : ℝ := 299792458

/-- Boltzmann's constant k in J/K, the value imported from scipy.constants. -/
def k : ℝ := 1.380649e-23

/-- Wien displacement constant as hard-coded in 4D.py
(`lambda_max_m = 2.898e-3 / T_t`). -/
def b_wien : ℝ := 2.898e-3

/-- Function `bose_einstein(wavelength, T)` of simulasi.py, pengembangan.py and
4D.py: `numerator = (2*h*c**2)/wl**5`, `denominator = exp((h*c)/(wl*k*T)) - 1`,
returning `numerator / denominator`. -/
def bose_einstein (wavelength T : ℝ) : ℝ :=
  ((2 * h * c ^ 2) / wavelength ^ 5) / (Real.exp ((h * c) / (wavelength * k * T)) - 1)

/-- Newton cooling law of pengembangan.py and 4D.py, evaluated at a single
time: `T_t = T_env + (T0 - T_env) * np.exp(-k_cool * time_steps)` acts
elementwise, so the scalar function is `T_env + (T0 − T_env)·exp(−k_cool·t)`. -/
def T_t_at (T0 Tenv k_cool t : ℝ) : ℝ :=
  Tenv + (T0 - Tenv) * Real.exp (-k_cool * t)

/-- Modelling of `np.linspace(a, b, n)` for n ≥ 2: n equally spaced samples
from a to b inclusive, sample i being `a + (b − a)·i/(n − 1)`. -/
def linspace (a b : ℝ) (n : ℕ) : List ℝ :=
  (List.range n).map (fun i : ℕ => a + (b - a) * (i : ℝ) / ((n : ℝ) - 1))

/-- Time grid of pengembangan.py: `time_steps = np.linspace(0, 15, 80)`. -/
def time_steps : List ℝ := linspace 0 15 80

/-- Temperature series of pengembangan.py:
`T_t = T_env + (T0 - T_env) * np.exp(-k_cool * time_steps)` with
T0 = 6000, T_env = 300, k_cool = 0.25. -/
def T_t : List ℝ := time_steps.map (T_t_at 6000 300 0.25)

/-- Intensity field of pengembangan.py and 4D.py: one row per temperature,
`I_t = bose_einstein(wl_m, T)` appended for each T in the temperature
series. -/
def intensityField (wl temps : List ℝ) : List (List ℝ) :=
  temps.map (fun T => wl.map (fun w => bose_einstein w T))

/-- Global maximum of a matrix, as in `I_time.max()`; 0 on an empty matrix
(where NumPy would raise). -/
def globalMax (F : List (List ℝ)) : ℝ := (F.flatten).maximum.unbot' 0

/-- Normalization step `I_time /= I_time.max()` applied to a matrix: every
entry is divided by the global maximum, unconditionally. -/
def normalizeField (F : List (List ℝ)) : List (List ℝ) :=
  F.map (fun row => row.map (fun x => x / globalMax F))

/-- First index of the minimum of a list, as computed by `np.argmin`
(ties broken by the lower index); 0 on the empty list. -/
def idxOfMin : List ℝ → ℕ
  | [] => 0
  | [_] => 0
  | a :: b :: l =>
    if a ≤ (b :: l).getD (idxOfMin (b :: l)) 0 then 0 else idxOfMin (b :: l) + 1

/-- First index of the maximum of a list, as computed by `np.argmax`
(ties broken by the lower index); 0 on the empty list. -/
def idxOfMax : List ℝ → ℕ
  | [] => 0
  | [_] => 0
  | a :: b :: l =>
    if (b :: l).getD (idxOfMax (b :: l)) 0 ≤ a then 0 else idxOfMax (b :: l) + 1

/-- Wien peak wavelength in nanometres, as computed in 4D.py:
`lambda_max_m = 2.898e-3 / T_t; lambda_max_nm = lambda_max_m * 1e9`. -/
def lambdaMaxNm (T : ℝ) : ℝ := b_wien / T * 1e9

/-- Nearest-grid-point index of 4D.py:
`idx = np.abs(wl_nm - lambda_max_nm[i]).argmin()`. -/
def nearestIdx (wl : List ℝ) (x : ℝ) : ℕ := idxOfMin (wl.map (fun w => |w - x|))

/-- Peak intensity trace of 4D.py: for each temperature index i,
`I_peak.append(I_time[i, idx])` where idx is the nearest grid index to
the Wien wavelength of the i-th temperature. -/
def peakTrace (wl temps : List ℝ) (F : List (List ℝ)) : List ℝ :=
  (List.range temps.length).map
    (fun i => (F.getD i []).getD (nearestIdx wl (lambdaMaxNm (temps.getD i 0))) 0)

/-- Error metric `mape` of simulasi.py:
`np.mean(np.abs((y_true - y_pred) / y_true)) * 100`, with real division
(division by zero yields 0 here, where NumPy yields Inf/NaN). -/
def mape (y_true y_pred : List ℝ) : ℝ :=
  ((List.zipWith (fun a b => |(a - b) / a|) y_true y_pred).sum
      / ((List.zipWith (fun a b => |(a - b) / a|) y_true y_pred).length : ℝ)) * 100

/-- Error metric `chi_square` of simulasi.py:
`np.sum(((y_true - y_pred)**2) / y_pred)`, with real division
(division by zero yields 0 here, where NumPy yields Inf/NaN). -/
def chi_square (y_true y_pred : List ℝ) : ℝ :=
  (List.zipWith (fun a b => (a - b) ^ 2 / b) y_true y_pred).sum

lemma h_pos : 0 < h := by norm_num [h]

lemma c_pos : 0 < c := by norm_num [c]

lemma k_pos : 0 < k := by norm_num [k]

lemma bose_einstein_denom_pos {wl T : ℝ} (hw : 0 < wl) (hT : 0 < T) :
    0 < Real.exp ((h * c) / (wl * k * T)) - 1 := by
  have harg : 0 < (h * c) / (wl * k * T) :=
    div_pos (mul_pos h_pos c_pos) (mul_pos (mul_pos hw k_pos) hT)
  have := Real.one_lt_exp_iff.mpr harg
  linarith

lemma bose_einstein_numer_pos {wl : ℝ} (hw : 0 < wl) :
    0 < (2 * h * c ^ 2) / wl ^ 5 := by
  have : 0 < (2 : ℝ) * h * c ^ 2 := by
    have := h_pos; have := c_pos; positivity
  exact div_pos this (by positivity)

lemma bose_einstein_pos {wl T : ℝ} (hw : 0 < wl) (hT : 0 < T) :
    0 < bose_einstein wl T :=
  div_pos (bose_einstein_numer_pos hw) (bose_einstein_denom_pos hw hT)

/-- C1: for λ > 0 and T > 0, `bose_einstein` returns exactly
`(2·h·c²/λ⁵) / (exp(h·c/(λ·k·T)) − 1)`; the denominator is nonzero (indeed
positive, so the value is a well-defined finite real) and the result is
non-negative. -/
theorem bose_einstein_formula_nonneg (wl T : ℝ) (hw : 0 < wl) (hT : 0 < T) :
    bose_einstein wl T
        = ((2 * h * c ^ 2) / wl ^ 5) / (Real.exp ((h * c) / (wl * k * T)) - 1)
      ∧ 0 < Real.exp ((h * c) / (wl * k * T)) - 1
      ∧ 0 ≤ bose_einstein wl T :=
  ⟨rfl, bose_einstein_denom_pos hw hT, (bose_einstein_pos hw hT).le⟩

/-- Witness for C1 at λ = 500 nm, T = 4500 K. -/
theorem bose_einstein_formula_nonneg_witness :
    (0 : ℝ) < 5e-7 ∧ (0 : ℝ) < 4500
      ∧ (bose_einstein 5e-7 4500
            = ((2 * h * c ^ 2) / (5e-7 : ℝ) ^ 5)
                / (Real.exp ((h * c) / (5e-7 * k * 4500)) - 1)
          ∧ 0 < Real.exp ((h * c) / ((5e-7 : ℝ) * k * 4500)) - 1
          ∧ 0 ≤ bose_einstein 5e-7 4500) :=
  ⟨by norm_num, by norm_num,
    bose_einstein_formula_nonneg 5e-7 4500 (by norm_num) (by norm_num)⟩

/-- C5: for fixed λ > 0 the spectral model is strictly increasing in the
temperature: 0 < T1 < T2 implies `bose_einstein λ T1 < bose_einstein λ T2`. -/
theorem bose_einstein_strictMono_T (wl T1 T2 : ℝ)
    (hw : 0 < wl) (hT1 : 0 < T1) (h12 : T1 < T2) :
    bose_einstein wl T1 < bose_einstein wl T2 := by
  have hT2 : 0 < T2 := hT1.trans h12
  have hwk : 0 < wl * k := mul_pos hw k_pos
  have hden1 : 0 < wl * k * T1 := mul_pos hwk hT1
  have hden2 : 0 < wl * k * T2 := mul_pos hwk hT2
  have hlt : wl * k * T1 < wl * k * T2 := by
    exact mul_lt_mul_of_pos_left h12 hwk
  have harg : (h * c) / (wl * k * T2) < (h * c) / (wl * k * T1) :=
    div_lt_div_of_pos_left (mul_pos h_pos c_pos) hden1 hlt
  have hexp : Real.exp ((h * c) / (wl * k * T2))
      < Real.exp ((h * c) / (wl * k * T1)) := Real.exp_lt_exp.mpr harg
  unfold bose_einstein
  exact div_lt_div_of_pos_left (bose_einstein_numer_pos hw)
    (bose_einstein_denom_pos hw hT2) (by linarith)

/-- Witness for C5 at λ = 500 nm, T1 = 3000 K, T2 = 4500 K. -/
theorem bose_einstein_strictMono_T_witness :
    (0 : ℝ) < 5e-7 ∧ (0 : ℝ) < 3000 ∧ (3000 : ℝ) < 4500
      ∧ bose_einstein 5e-7 3000 < bose_einstein 5e-7 4500 :=
  ⟨by norm_num, by norm_num, by norm_num,
    bose_einstein_strictMono_T 5e-7 3000 4500 (by norm_num) (by norm_num)
      (by norm_num)⟩

lemma T_t_at_zero (T0 Tenv k_cool : ℝ) : T_t_at T0 Tenv k_cool 0 = T0 := by
  simp [T_t_at]

lemma T_t_at_strictAnti {T0 Tenv k_cool t1 t2 : ℝ} (hk : 0 < k_cool)
    (h12 : t1 < t2) (hD : Tenv < T0) :
    T_t_at T0 Tenv k_cool t2 < T_t_at T0 Tenv k_cool t1 := by
  unfold T_t_at
  have hexp : Real.exp (-k_cool * t2) < Real.exp (-k_cool * t1) := by
    apply Real.exp_lt_exp.mpr
    nlinarith
  have hD' : (0 : ℝ) < T0 - Tenv := by linarith
  nlinarith

lemma T_t_at_strictMono {T0 Tenv k_cool t1 t2 : ℝ} (hk : 0 < k_cool)
    (h12 : t1 < t2) (hD : T0 < Tenv) :
    T_t_at T0 Tenv k_cool t1 < T_t_at T0 Tenv k_cool t2 := by
  unfold T_t_at
  have hexp : Real.exp (-k_cool * t2) < Real.exp (-k_cool * t1) := by
    apply Real.exp_lt_exp.mpr
    nlinarith
  have hD' : T0 - Tenv < 0 := by linarith
  nlinarith

/-- C3: the cooling trajectory satisfies T(0) = T0 exactly, and over any
strictly increasing time series with k_cool > 0 the mapped temperature
series is strictly decreasing when T0 > T_env, strictly increasing when
T0 < T_env, and constant (everywhere equal to T0) when T0 = T_env. -/
theorem cooling_trajectory (T0 Tenv k_cool : ℝ) (ts : List ℝ)
    (hk : 0 < k_cool) (hts : List.Chain' (· < ·) ts) :
    T_t_at T0 Tenv k_cool 0 = T0
      ∧ (Tenv < T0 → List.Chain' (· > ·) (ts.map (T_t_at T0 Tenv k_cool)))
      ∧ (T0 < Tenv → List.Chain' (· < ·) (ts.map (T_t_at T0 Tenv k_cool)))
      ∧ (T0 = Tenv → ∀ x ∈ ts.map (T_t_at T0 Tenv k_cool), x = T0) := by
  refine ⟨T_t_at_zero T0 Tenv k_cool, ?_, ?_, ?_⟩
  · intro hD
    exact (List.chain'_map _).mpr
      (hts.imp (fun a b hab => T_t_at_strictAnti hk hab hD))
  · intro hD
    exact (List.chain'_map _).mpr
      (hts.imp (fun a b hab => T_t_at_strictMono hk hab hD))
  · intro hEq x hx
    rcases List.mem_map.mp hx with ⟨t, _, rfl⟩
    simp [T_t_at, hEq]

/-- Witness for C3 with the concrete scenario of pengembangan.py on the
time series [0, 4]. -/
theorem cooling_trajectory_witness :
    (0 : ℝ) < 0.25 ∧ List.Chain' (· < ·) [(0 : ℝ), 4]
      ∧ (T_t_at 6000 300 0.25 0 = 6000
          ∧ ((300 : ℝ) < 6000
              → List.Chain' (· > ·) ([(0 : ℝ), 4].map (T_t_at 6000 300 0.25)))
          ∧ ((6000 : ℝ) < 300
              → List.Chain' (· < ·) ([(0 : ℝ), 4].map (T_t_at 6000 300 0.25)))
          ∧ ((6000 : ℝ) = 300
              → ∀ x ∈ [(0 : ℝ), 4].map (T_t_at 6000 300 0.25), x = 6000)) :=
  ⟨by norm_num, by norm_num [List.chain'_cons],
    cooling_trajectory 6000 300 0.25 [0, 4] (by norm_num)
      (by norm_num [List.chain'_cons])⟩

lemma T_t_length : T_t.length = 80 := by
  rw [T_t, List.length_map, time_steps, linspace, List.length_map,
    List.length_range]

lemma T_t_getD_zero : T_t.getD 0 0 = 6000 := by
  have hlen : 0 < T_t.length := by rw [T_t_length]; norm_num
  rw [List.getD_eq_getElem _ _ hlen]
  simp only [T_t, time_steps, linspace, List.getElem_map, List.getElem_range]
  norm_num [T_t_at, Real.exp_zero]

lemma T_t_getD_last : T_t.getD 79 0 = 300 + 5700 * Real.exp (-3.75) := by
  have hlen : 79 < T_t.length := by rw [T_t_length]; norm_num
  rw [List.getD_eq_getElem _ _ hlen]
  simp only [T_t, time_steps, linspace, List.getElem_map, List.getElem_range]
  have harg : -(0.25 : ℝ) * (0 + (15 - 0) * ((79 : ℕ) : ℝ) / ((80 : ℕ) - 1))
      = -3.75 := by
    push_cast
    norm_num
  simp only [T_t_at, harg]
  norm_num

lemma exp_three_quarters_gt : (2.1165 : ℝ) < Real.exp 0.75 := by
  have hsum := Real.sum_le_exp_of_nonneg (x := 0.75) (by norm_num) 6
  have : (2.1165 : ℝ) < ∑ i ∈ Finset.range 6, (0.75 : ℝ) ^ i / i.factorial := by
    norm_num [Finset.sum_range_succ, Nat.factorial]
  linarith

lemma exp_three_quarters_lt : Real.exp 0.75 < (2.1172 : ℝ) := by
  have hub := Real.exp_bound' (x := 0.75) (by norm_num) (by norm_num)
    (n := 6) (by norm_num)
  have : (∑ i ∈ Finset.range 6, (0.75 : ℝ) ^ i / i.factorial)
      + (0.75 : ℝ) ^ 6 * (6 + 1) / (Nat.factorial 6 * 6) < 2.1172 := by
    norm_num [Finset.sum_range_succ, Nat.factorial]
  linarith

lemma exp_threepoint75_gt : (42.4 : ℝ) < Real.exp 3.75 := by
  have hsplit : Real.exp (3.75 : ℝ) = Real.exp 1 ^ 3 * Real.exp 0.75 := by
    rw [show (3.75 : ℝ) = (3 : ℕ) * 1 + 0.75 by norm_num, Real.exp_add,
      Real.exp_nat_mul]
  rw [hsplit]
  have h1 : (2.7182818283 : ℝ) ^ 3 < Real.exp 1 ^ 3 :=
    pow_lt_pow_left₀ Real.exp_one_gt_d9 (by norm_num) (by norm_num)
  have h2 := exp_three_quarters_gt
  nlinarith [Real.exp_pos (1 : ℝ), Real.exp_pos (0.75 : ℝ)]

lemma exp_threepoint75_lt : Real.exp 3.75 < (42.6 : ℝ) := by
  have hsplit : Real.exp (3.75 : ℝ) = Real.exp 1 ^ 3 * Real.exp 0.75 := by
    rw [show (3.75 : ℝ) = (3 : ℕ) * 1 + 0.75 by norm_num, Real.exp_add,
      Real.exp_nat_mul]
  rw [hsplit]
  have h1 : Real.exp 1 ^ 3 < (2.7182818286 : ℝ) ^ 3 :=
    pow_lt_pow_left₀ Real.exp_one_lt_d9 (Real.exp_pos 1).le (by norm_num)
  have h2 := exp_three_quarters_lt
  nlinarith [Real.exp_pos (1 : ℝ), Real.exp_pos (0.75 : ℝ)]

lemma T_t_last_bounds :
    (433.8 : ℝ) < 300 + 5700 * Real.exp (-3.75)
      ∧ 300 + 5700 * Real.exp (-3.75) < (434.5 : ℝ) := by
  have hpos : (0 : ℝ) < Real.exp 3.75 := Real.exp_pos _
  have hgt := exp_threepoint75_gt
  have hlt := exp_threepoint75_lt
  rw [Real.exp_neg]
  constructor
  · have h1 : (5700 : ℝ) / 42.6 < 5700 / Real.exp 3.75 :=
      div_lt_div_of_pos_left (by norm_num) hpos hlt
    rw [div_eq_mul_inv 5700 (Real.exp 3.75)] at h1
    norm_num at h1
    linarith
  · have h1 : (5700 : ℝ) / Real.exp 3.75 < 5700 / 42.4 :=
      div_lt_div_of_pos_left (by norm_num) (by norm_num) hgt
    rw [div_eq_mul_inv 5700 (Real.exp 3.75)] at h1
    norm_num at h1
    linarith

/-- C9 counterexample: in the concrete cooling scenario of pengembangan.py
(T0 = 6000 K, T_env = 300 K, k_cool = 0.25/s, 80 samples over 15 s) the last
temperature equals 300 + 5700·exp(−3.75) as the claim states, but this value
is below 435 K, so it is not approximately 440.9 K (it differs from 440.9 by
more than 0.5). -/
theorem T_t_last_not_440_9 :
    T_t.getD 79 0 = 300 + 5700 * Real.exp (-3.75)
      ∧ T_t.getD 79 0 < 435
      ∧ ¬ |T_t.getD 79 0 - 440.9| ≤ 0.5 := by
  have hb := T_t_last_bounds
  refine ⟨T_t_getD_last, ?_, ?_⟩
  · rw [T_t_getD_last]; linarith [hb.2]
  · rw [T_t_getD_last]
    intro habs
    rw [abs_le] at habs
    have := habs.1
    linarith [hb.2]

/-- C9 as amended: in the concrete cooling scenario of pengembangan.py the
temperature series has first element exactly 6000 K and last element exactly
300 + 5700·exp(−3.75), which is approximately 434.1 K (not 440.9 K). -/
theorem T_t_first_last :
    T_t.getD 0 0 = 6000
      ∧ T_t.getD 79 0 = 300 + 5700 * Real.exp (-3.75)
      ∧ |T_t.getD 79 0 - 434.1| < 0.5 := by
  have hb := T_t_last_bounds
  refine ⟨T_t_getD_zero, T_t_getD_last, ?_⟩
  rw [T_t_getD_last, abs_sub_lt_iff]
  constructor <;> linarith [hb.1, hb.2]

/-- C6 code check: the normalization step `I_time /= I_time.max()` has no
error path. On the pathological field [[0]], whose global maximum is 0, it
still performs the division and returns a numeric field (NumPy yields a NaN
entry from 0/0; in this real-number embedding the division by zero yields 0)
instead of signalling a DomainError. -/
theorem normalizeField_no_error_on_zero_max :
    globalMax [[(0 : ℝ)]] = 0 ∧ normalizeField [[(0 : ℝ)]] = [[0]] := by
  have hmax : globalMax [[(0 : ℝ)]] = 0 := by
    simp [globalMax, List.maximum_singleton]
  refine ⟨hmax, ?_⟩
  simp [normalizeField, hmax]

/-- C7 code check: `mape` and `chi_square` have no error path. With a zero
element in y_true (resp. y_pred) they still aggregate the elementwise
quotients and return a number (NumPy folds an Inf/NaN into the mean/sum; in
this real-number embedding the zero-denominator term becomes 0) instead of
signalling a MetricUndefinedError. -/
theorem metrics_no_error_on_zero_denominator :
    mape [0, 1] [1, 1] = 0 ∧ chi_square [1, 2] [0, 1] = 1 := by
  constructor
  · norm_num [mape]
  · norm_num [chi_square]

lemma flatten_intensityField_ne_nil {wl temps : List ℝ}
    (hwl : wl ≠ []) (ht : temps ≠ []) :
    (intensityField wl temps).flatten ≠ [] := by
  rcases temps with _ | ⟨T, ts⟩
  · exact absurd rfl ht
  · rcases wl with _ | ⟨w, ws⟩
    · exact absurd rfl hwl
    · simp [intensityField]

lemma intensityField_entries_pos {wl temps : List ℝ}
    (hwpos : ∀ w ∈ wl, 0 < w) (htpos : ∀ T ∈ temps, 0 < T) :
    ∀ x ∈ (intensityField wl temps).flatten, 0 < x := by
  intro x hx
  rcases List.mem_flatten.mp hx with ⟨row, hrow, hxrow⟩
  rcases List.mem_map.mp hrow with ⟨T, hT, rfl⟩
  rcases List.mem_map.mp hxrow with ⟨w, hw, rfl⟩
  exact bose_einstein_pos (hwpos w hw) (htpos T hT)

lemma globalMax_spec {F : List (List ℝ)} (hne : F.flatten ≠ []) :
    globalMax F ∈ F.flatten ∧ ∀ x ∈ F.flatten, x ≤ globalMax F := by
  have hb : F.flatten.maximum ≠ ⊥ := by
    rw [Ne, List.maximum_eq_bot]; exact hne
  obtain ⟨m, hm⟩ := WithBot.ne_bot_iff_exists.mp hb
  have hval : globalMax F = m := by
    rw [globalMax, ← hm, WithBot.unbot'_coe]
  refine ⟨?_, ?_⟩
  · rw [hval]; exact List.maximum_mem hm.symm
  · intro x hx
    rw [hval]
    exact List.le_maximum_of_mem hx hm.symm

lemma flatten_normalizeField (F : List (List ℝ)) :
    (normalizeField F).flatten
      = F.flatten.map (fun x => x / globalMax F) := by
  rw [normalizeField, ← List.map_flatten]

/-- C2: over any nonempty grid of positive wavelengths and any nonempty
series of positive temperatures, dividing the intensity field by its global
maximum yields a field whose global maximum equals 1 and all of whose
entries lie in [0, 1]. -/
theorem normalized_field_invariant (wl temps : List ℝ)
    (hwl : wl ≠ []) (ht : temps ≠ [])
    (hwpos : ∀ w ∈ wl, 0 < w) (htpos : ∀ T ∈ temps, 0 < T) :
    globalMax (normalizeField (intensityField wl temps)) = 1
      ∧ ∀ row ∈ normalizeField (intensityField wl temps), ∀ x ∈ row,
          0 ≤ x ∧ x ≤ 1 := by
  set F := intensityField wl temps with hF
  have hne : F.flatten ≠ [] := flatten_intensityField_ne_nil hwl ht
  obtain ⟨hmem, hle⟩ := globalMax_spec hne
  have hpos : ∀ x ∈ F.flatten, 0 < x := intensityField_entries_pos hwpos htpos
  have hMpos : 0 < globalMax F := hpos _ hmem
  constructor
  · rw [globalMax, flatten_normalizeField]
    have hmax1 : (F.flatten.map (fun x => x / globalMax F)).maximum
        = ((1 : ℝ) : WithBot ℝ) := by
      rw [List.maximum_eq_coe_iff]
      constructor
      · exact List.mem_map.mpr ⟨globalMax F, hmem, div_self hMpos.ne'⟩
      · intro a ha
        rcases List.mem_map.mp ha with ⟨x, hx, rfl⟩
        exact (div_le_one hMpos).mpr (hle x hx)
    rw [hmax1, WithBot.unbot'_coe]
  · intro row hrow x hx
    have hxf : x ∈ (normalizeField F).flatten := List.mem_flatten.mpr ⟨row, hrow, hx⟩
    rw [flatten_normalizeField] at hxf
    rcases List.mem_map.mp hxf with ⟨y, hy, rfl⟩
    exact ⟨div_nonneg (hpos y hy).le hMpos.le, (div_le_one hMpos).mpr (hle y hy)⟩

/-- Witness for C2 on the two-wavelength grid [400 nm, 700 nm] and the
temperature series [3000 K, 5000 K]. -/
theorem normalized_field_invariant_witness :
    ([(4e-7 : ℝ), 7e-7] ≠ []) ∧ ([(3000 : ℝ), 5000] ≠ [])
      ∧ (∀ w ∈ [(4e-7 : ℝ), 7e-7], 0 < w)
      ∧ (∀ T ∈ [(3000 : ℝ), 5000], 0 < T)
      ∧ (globalMax (normalizeField (intensityField [4e-7, 7e-7] [3000, 5000])) = 1
          ∧ ∀ row ∈ normalizeField (intensityField [4e-7, 7e-7] [3000, 5000]),
              ∀ x ∈ row, 0 ≤ x ∧ x ≤ 1) :=
  ⟨by simp, by simp,
    by intro w hw; fin_cases hw <;> norm_num,
    by intro T hT; fin_cases hT <;> norm_num,
    normalized_field_invariant [4e-7, 7e-7] [3000, 5000] (by simp) (by simp)
      (by intro w hw; fin_cases hw <;> norm_num)
      (by intro T hT; fin_cases hT <;> norm_num)⟩

lemma idxOfMin_lt_length (l : List ℝ) (h : l ≠ []) : idxOfMin l < l.length := by
  induction l with
  | nil => exact absurd rfl h
  | cons a t ih =>
    cases t with
    | nil => simp [idxOfMin]
    | cons b l2 =>
      simp only [idxOfMin]
      split
      · simp
      · have h2 := ih (by simp)
        simp only [List.length_cons] at h2 ⊢
        omega

lemma idxOfMin_le (l : List ℝ) :
    ∀ j < l.length, l.getD (idxOfMin l) 0 ≤ l.getD j 0 := by
  induction l with
  | nil => intro j hj; simp at hj
  | cons a t ih =>
    cases t with
    | nil =>
      intro j hj
      have hj0 : j = 0 := by simpa using Nat.lt_one_iff.mp (by simpa using hj)
      subst hj0
      simp [idxOfMin]
    | cons b l2 =>
      intro j hj
      simp only [idxOfMin]
      by_cases hcond : a ≤ (b :: l2).getD (idxOfMin (b :: l2)) 0
      · rw [if_pos hcond]
        cases j with
        | zero => simp
        | succ i =>
          simp only [List.getD_cons_zero, List.getD_cons_succ]
          refine le_trans hcond (ih i ?_)
          simp only [List.length_cons] at hj ⊢
          omega
      · rw [if_neg hcond]
        push_neg at hcond
        cases j with
        | zero =>
          simp only [List.getD_cons_succ, List.getD_cons_zero]
          exact hcond.le
        | succ i =>
          simp only [List.getD_cons_succ]
          refine ih i ?_
          simp only [List.length_cons] at hj ⊢
          omega

lemma idxOfMin_first (l : List ℝ) :
    ∀ j < idxOfMin l, l.getD (idxOfMin l) 0 < l.getD j 0 := by
  induction l with
  | nil => intro j hj; simp [idxOfMin] at hj
  | cons a t ih =>
    cases t with
    | nil => intro j hj; simp [idxOfMin] at hj
    | cons b l2 =>
      intro j hj
      simp only [idxOfMin] at hj ⊢
      by_cases hcond : a ≤ (b :: l2).getD (idxOfMin (b :: l2)) 0
      · rw [if_pos hcond] at hj
        exact absurd hj (Nat.not_lt_zero j)
      · rw [if_neg hcond] at hj ⊢
        push_neg at hcond
        cases j with
        | zero =>
          simp only [List.getD_cons_succ, List.getD_cons_zero]
          exact hcond
        | succ i =>
          simp only [List.getD_cons_succ]
          exact ih i (Nat.lt_of_succ_lt_succ hj)

lemma idxOfMin_of_strictMono (l : List ℝ) (hne : l ≠ [])
    (h : ∀ i j, i < j → j < l.length → l.getD i 0 < l.getD j 0) :
    idxOfMin l = 0 := by
  cases l with
  | nil => exact absurd rfl hne
  | cons a t =>
    cases t with
    | nil => simp [idxOfMin]
    | cons b l2 =>
      simp only [idxOfMin]
      rw [if_pos]
      have hlt := idxOfMin_lt_length (b :: l2) (by simp)
      have hkey := h 0 (idxOfMin (b :: l2) + 1) (Nat.succ_pos _)
        (by simp only [List.length_cons] at hlt ⊢; omega)
      simp only [List.getD_cons_zero, List.getD_cons_succ] at hkey
      exact hkey.le

lemma idxOfMin_of_strictAnti (l : List ℝ)
    (h : ∀ i j, i < j → j < l.length → l.getD j 0 < l.getD i 0) :
    idxOfMin l = l.length - 1 := by
  induction l with
  | nil => simp [idxOfMin]
  | cons a t ih =>
    cases t with
    | nil => simp [idxOfMin]
    | cons b l2 =>
      have ht : ∀ i j, i < j → j < (b :: l2).length
          → (b :: l2).getD j 0 < (b :: l2).getD i 0 := by
        intro i j hij hj
        have hkey := h (i + 1) (j + 1) (Nat.succ_lt_succ hij)
          (by simp only [List.length_cons] at hj ⊢; omega)
        simpa using hkey
      have hidx := ih ht
      simp only [idxOfMin, hidx]
      rw [if_neg]
      · simp only [List.length_cons]
        omega
      · push_neg
        have hkey := h 0 ((b :: l2).length - 1 + 1) (Nat.succ_pos _)
          (by simp only [List.length_cons]; omega)
        simp only [List.getD_cons_zero, List.getD_cons_succ] at hkey
        exact hkey

lemma getD_map_abs (wl : List ℝ) (x : ℝ) {j : ℕ} (hj : j < wl.length) :
    (wl.map (fun w => |w - x|)).getD j 0 = |wl.getD j 0 - x| := by
  rw [List.getD_eq_getElem _ _ (by simpa using hj),
    List.getD_eq_getElem _ _ hj, List.getElem_map]

lemma nearestIdx_lt_length (wl : List ℝ) (x : ℝ) (hwl : wl ≠ []) :
    nearestIdx wl x < wl.length := by
  have hkey := idxOfMin_lt_length (wl.map (fun w => |w - x|)) (by simpa using hwl)
  simpa [nearestIdx] using hkey

lemma nearestIdx_min (wl : List ℝ) (x : ℝ) (hwl : wl ≠ []) :
    ∀ j < wl.length,
      |wl.getD (nearestIdx wl x) 0 - x| ≤ |wl.getD j 0 - x| := by
  intro j hj
  have h1 := idxOfMin_le (wl.map (fun w => |w - x|)) j (by simpa using hj)
  rw [show idxOfMin (wl.map (fun w => |w - x|)) = nearestIdx wl x from rfl,
    getD_map_abs wl x (nearestIdx_lt_length wl x hwl),
    getD_map_abs wl x hj] at h1
  exact h1

lemma nearestIdx_first (wl : List ℝ) (x : ℝ) (hwl : wl ≠ []) :
    ∀ j < nearestIdx wl x,
      |wl.getD (nearestIdx wl x) 0 - x| < |wl.getD j 0 - x| := by
  intro j hj
  have h1 := idxOfMin_first (wl.map (fun w => |w - x|)) j hj
  have hjlt : j < wl.length := lt_trans hj (nearestIdx_lt_length wl x hwl)
  rw [show idxOfMin (wl.map (fun w => |w - x|)) = nearestIdx wl x from rfl,
    getD_map_abs wl x (nearestIdx_lt_length wl x hwl),
    getD_map_abs wl x hjlt] at h1
  exact h1

lemma nearestIdx_below (wl : List ℝ) (x : ℝ) (hwl : wl ≠ [])
    (hinc : ∀ i j, i < j → j < wl.length → wl.getD i 0 < wl.getD j 0)
    (hx : x ≤ wl.getD 0 0) :
    nearestIdx wl x = 0 := by
  apply idxOfMin_of_strictMono _ (by simpa using hwl)
  intro i j hij hj
  simp only [List.length_map] at hj
  have hij' : i < wl.length := lt_trans hij hj
  rw [getD_map_abs wl x hij', getD_map_abs wl x hj]
  have h0i : wl.getD 0 0 ≤ wl.getD i 0 := by
    rcases Nat.eq_zero_or_pos i with rfl | hi
    · exact le_refl _
    · exact (hinc 0 i hi hij').le
  have hxi : x ≤ wl.getD i 0 := le_trans hx h0i
  have hij'' := hinc i j hij hj
  rw [abs_of_nonneg (by linarith), abs_of_nonneg (by linarith)]
  linarith

lemma nearestIdx_above (wl : List ℝ) (x : ℝ) (hwl : wl ≠ [])
    (hinc : ∀ i j, i < j → j < wl.length → wl.getD i 0 < wl.getD j 0)
    (hx : wl.getD (wl.length - 1) 0 ≤ x) :
    nearestIdx wl x = wl.length - 1 := by
  have hpos : 0 < wl.length := List.length_pos.mpr hwl
  have h := idxOfMin_of_strictAnti (wl.map (fun w => |w - x|)) ?_
  · simpa [nearestIdx] using h
  · intro i j hij hj
    simp only [List.length_map] at hj
    have hi' : i < wl.length := lt_trans hij hj
    rw [getD_map_abs wl x hi', getD_map_abs wl x hj]
    have hjlast : wl.getD j 0 ≤ wl.getD (wl.length - 1) 0 := by
      rcases eq_or_lt_of_le (Nat.le_sub_one_of_lt hj) with heq | hlt
      · exact le_of_eq (by rw [heq])
      · exact (hinc j (wl.length - 1) hlt (by omega)).le
    have hxj : wl.getD j 0 ≤ x := le_trans hjlast hx
    have hij'' := hinc i j hij hj
    rw [abs_of_nonpos (by linarith), abs_of_nonpos (by linarith)]
    linarith

lemma peakTrace_length (wl temps : List ℝ) (F : List (List ℝ)) :
    (peakTrace wl temps F).length = temps.length := by
  rw [peakTrace, List.length_map, List.length_range]

lemma peakTrace_getD (wl temps : List ℝ) (F : List (List ℝ)) {i : ℕ}
    (hi : i < temps.length) :
    (peakTrace wl temps F).getD i 0
      = (F.getD i []).getD (nearestIdx wl (lambdaMaxNm (temps.getD i 0))) 0 := by
  have hlen : i < (peakTrace wl temps F).length := by
    rw [peakTrace_length]; exact hi
  rw [List.getD_eq_getElem _ _ hlen]
  simp only [peakTrace, List.getElem_map, List.getElem_range]

/-- C4: for each temperature index i the Wien peak tracker uses the
wavelength λ_max = (b/T_i)·1e9 in nanometres (b = 2.898e-3 m·K as hard-coded
in 4D.py), selects the grid index minimizing the absolute difference to
λ_max with ties broken by the lower index, and reads the intensity field at
(row i, that column); when λ_max falls at or below the first grid point the
index is 0 and when it falls at or beyond the last grid point the index is
the last one; the trace has exactly one entry per temperature. -/
theorem wien_peak_tracker (wl temps : List ℝ) (F : List (List ℝ))
    (hwl : wl ≠ [])
    (hinc : ∀ i j, i < j → j < wl.length → wl.getD i 0 < wl.getD j 0) :
    (peakTrace wl temps F).length = temps.length
      ∧ ∀ i < temps.length,
          (peakTrace wl temps F).getD i 0
              = (F.getD i []).getD
                  (nearestIdx wl (lambdaMaxNm (temps.getD i 0))) 0
            ∧ nearestIdx wl (lambdaMaxNm (temps.getD i 0)) < wl.length
            ∧ (∀ j < wl.length,
                |wl.getD (nearestIdx wl (lambdaMaxNm (temps.getD i 0))) 0
                    - lambdaMaxNm (temps.getD i 0)|
                  ≤ |wl.getD j 0 - lambdaMaxNm (temps.getD i 0)|)
            ∧ (∀ j < nearestIdx wl (lambdaMaxNm (temps.getD i 0)),
                |wl.getD (nearestIdx wl (lambdaMaxNm (temps.getD i 0))) 0
                    - lambdaMaxNm (temps.getD i 0)|
                  < |wl.getD j 0 - lambdaMaxNm (temps.getD i 0)|)
            ∧ (lambdaMaxNm (temps.getD i 0) ≤ wl.getD 0 0
                → nearestIdx wl (lambdaMaxNm (temps.getD i 0)) = 0)
            ∧ (wl.getD (wl.length - 1) 0 ≤ lambdaMaxNm (temps.getD i 0)
                → nearestIdx wl (lambdaMaxNm (temps.getD i 0))
                    = wl.length - 1) := by
  refine ⟨peakTrace_length wl temps F, ?_⟩
  intro i hi
  exact ⟨peakTrace_getD wl temps F hi,
    nearestIdx_lt_length wl _ hwl,
    nearestIdx_min wl _ hwl,
    nearestIdx_first wl _ hwl,
    fun hx => nearestIdx_below wl _ hwl hinc hx,
    fun hx => nearestIdx_above wl _ hwl hinc hx⟩

/-- Witness for C4 on the grid [400, 500, 600] nm, the single temperature
5000 K and the intensity row [10, 20, 30]. -/
theorem wien_peak_tracker_witness :
    ([(400 : ℝ), 500, 600] ≠ [])
      ∧ (∀ i j, i < j → j < [(400 : ℝ), 500, 600].length
          → [(400 : ℝ), 500, 600].getD i 0 < [(400 : ℝ), 500, 600].getD j 0)
      ∧ ((peakTrace [400, 500, 600] [5000] [[10, 20, 30]]).length
            = [(5000 : ℝ)].length
          ∧ ∀ i < [(5000 : ℝ)].length,
              (peakTrace [400, 500, 600] [5000] [[10, 20, 30]]).getD i 0
                  = ([[(10 : ℝ), 20, 30]].getD i []).getD
                      (nearestIdx [400, 500, 600]
                        (lambdaMaxNm ([(5000 : ℝ)].getD i 0))) 0
                ∧ nearestIdx [400, 500, 600]
                      (lambdaMaxNm ([(5000 : ℝ)].getD i 0))
                    < [(400 : ℝ), 500, 600].length
                ∧ (∀ j < [(400 : ℝ), 500, 600].length,
                    |[(400 : ℝ), 500, 600].getD
                          (nearestIdx [400, 500, 600]
                            (lambdaMaxNm ([(5000 : ℝ)].getD i 0))) 0
                        - lambdaMaxNm ([(5000 : ℝ)].getD i 0)|
                      ≤ |[(400 : ℝ), 500, 600].getD j 0
                          - lambdaMaxNm ([(5000 : ℝ)].getD i 0)|)
                ∧ (∀ j < nearestIdx [400, 500, 600]
                      (lambdaMaxNm ([(5000 : ℝ)].getD i 0)),
                    |[(400 : ℝ), 500, 600].getD
                          (nearestIdx [400, 500, 600]
                            (lambdaMaxNm ([(5000 : ℝ)].getD i 0))) 0
                        - lambdaMaxNm ([(5000 : ℝ)].getD i 0)|
                      < |[(400 : ℝ), 500, 600].getD j 0
                          - lambdaMaxNm ([(5000 : ℝ)].getD i 0)|)
                ∧ (lambdaMaxNm ([(5000 : ℝ)].getD i 0)
                      ≤ [(400 : ℝ), 500, 600].getD 0 0
                    → nearestIdx [400, 500, 600]
                        (lambdaMaxNm ([(5000 : ℝ)].getD i 0)) = 0)
                ∧ ([(400 : ℝ), 500, 600].getD
                      ([(400 : ℝ), 500, 600].length - 1) 0
                      ≤ lambdaMaxNm ([(5000 : ℝ)].getD i 0)
                    → nearestIdx [400, 500, 600]
                        (lambdaMaxNm ([(5000 : ℝ)].getD i 0))
                        = [(400 : ℝ), 500, 600].length - 1)) :=
  ⟨by simp,
    by
      intro i j hij hj
      simp only [List.length_cons, List.length_nil] at hj
      interval_cases j <;> interval_cases i <;>
        norm_num [List.getD_cons_zero, List.getD_cons_succ],
    wien_peak_tracker [400, 500, 600] [5000] [[10, 20, 30]] (by simp)
      (by
        intro i j hij hj
        simp only [List.length_cons, List.length_nil] at hj
        interval_cases j <;> interval_cases i <;>
          norm_num [List.getD_cons_zero, List.getD_cons_succ])⟩

lemma getD_map_div (l : List ℝ) (m : ℝ) (j : ℕ) :
    (l.map (fun x => x / m)).getD j 0 = l.getD j 0 / m := by
  rcases lt_or_ge j l.length with hj | hj
  · rw [List.getD_eq_getElem _ _ (by simpa using hj),
      List.getD_eq_getElem _ _ hj, List.getElem_map]
  · rw [List.getD_eq_default _ _ (by simpa using hj),
      List.getD_eq_default _ _ hj, zero_div]

lemma idxOfMax_map_div (l : List ℝ) {m : ℝ} (hm : 0 < m) :
    idxOfMax (l.map (fun x => x / m)) = idxOfMax l := by
  induction l with
  | nil => simp
  | cons a t ih =>
    cases t with
    | nil => simp [idxOfMax]
    | cons b l2 =>
      simp only [List.map_cons] at ih ⊢
      simp only [idxOfMax]
      have hgetD : (b / m :: List.map (fun x => x / m) l2).getD
          (idxOfMax (b :: l2)) 0
            = (b :: l2).getD (idxOfMax (b :: l2)) 0 / m := by
        have hkey := getD_map_div (b :: l2) m (idxOfMax (b :: l2))
        simpa using hkey
      simp only [ih, hgetD, div_le_div_iff_of_pos_right hm]

lemma normalizeField_getD (F : List (List ℝ)) (i : ℕ) :
    (normalizeField F).getD i []
      = (F.getD i []).map (fun x => x / globalMax F) := by
  rcases lt_or_ge i F.length with hi | hi
  · rw [normalizeField, List.getD_eq_getElem _ _ (by simpa using hi),
      List.getD_eq_getElem _ _ hi, List.getElem_map]
  · rw [List.getD_eq_default _ _ (by simpa [normalizeField] using hi),
      List.getD_eq_default _ _ hi, List.map_nil]

/-- C10: dividing the intensity field by its global maximum (assumed
positive) preserves the ordering of entries within every row, leaves every
row's first arg-max column index unchanged, and the Wien peak tracker reads
the raw and the normalized field at identical grid indices — its trace over
the normalized field is exactly the raw trace divided by the global
maximum. -/
theorem normalization_preserves_row_order (wl temps : List ℝ)
    (F : List (List ℝ)) (hm : 0 < globalMax F) :
    (∀ i j1 j2, (((normalizeField F).getD i []).getD j1 0
          ≤ ((normalizeField F).getD i []).getD j2 0
        ↔ (F.getD i []).getD j1 0 ≤ (F.getD i []).getD j2 0))
      ∧ (∀ i, idxOfMax ((normalizeField F).getD i [])
          = idxOfMax (F.getD i []))
      ∧ (∀ i, (peakTrace wl temps (normalizeField F)).getD i 0
          = (peakTrace wl temps F).getD i 0 / globalMax F) := by
  refine ⟨?_, ?_, ?_⟩
  · intro i j1 j2
    rw [normalizeField_getD, getD_map_div, getD_map_div, div_le_div_iff_of_pos_right hm]
  · intro i
    rw [normalizeField_getD, idxOfMax_map_div _ hm]
  · intro i
    rcases lt_or_ge i temps.length with hi | hi
    · rw [peakTrace_getD wl temps _ hi, peakTrace_getD wl temps F hi,
        normalizeField_getD, getD_map_div]
    · rw [List.getD_eq_default _ _ (by rw [peakTrace_length]; exact hi),
        List.getD_eq_default _ _ (by rw [peakTrace_length]; exact hi), zero_div]

lemma globalMax_pair : globalMax [[(1 : ℝ), 2]] = 2 := by
  norm_num [globalMax, List.maximum_cons, List.maximum_singleton,
    ← WithBot.coe_max]
  rfl

/-- Witness for C10 on the field [[1, 2]] (global maximum 2), grid [500]
and temperature series [4000]. -/
theorem normalization_preserves_row_order_witness :
    0 < globalMax [[(1 : ℝ), 2]]
      ∧ ((∀ i j1 j2, (((normalizeField [[(1 : ℝ), 2]]).getD i []).getD j1 0
              ≤ ((normalizeField [[(1 : ℝ), 2]]).getD i []).getD j2 0
            ↔ ([[(1 : ℝ), 2]].getD i []).getD j1 0
              ≤ ([[(1 : ℝ), 2]].getD i []).getD j2 0))
          ∧ (∀ i, idxOfMax ((normalizeField [[(1 : ℝ), 2]]).getD i [])
              = idxOfMax ([[(1 : ℝ), 2]].getD i []))
          ∧ (∀ i, (peakTrace [500] [4000] (normalizeField [[(1 : ℝ), 2]])).getD i 0
              = (peakTrace [500] [4000] [[(1 : ℝ), 2]]).getD i 0
                  / globalMax [[(1 : ℝ), 2]])) :=
  ⟨by rw [globalMax_pair]; norm_num,
    normalization_preserves_row_order [500] [4000] [[(1 : ℝ), 2]]
      (by rw [globalMax_pair]; norm_num)⟩

end

end BoseEinstein
